import Mathlib

set_option maxHeartbeats 1000000

/- Shallow embedding of src/format.py, a Common-Lisp-style FORMAT
   implementation (directive parser plus directive interpreter).

   Modelling conventions:
   * Python strings are `List Char`; Python's unbounded integers are `Int`;
     Python floats are modelled as exact rationals (`Rat`), which is faithful
     for the float literals the claims mention (such as 1.0).
   * Every Python operation that can raise is an `Except Err` computation.
   * The mutually recursive parser and interpreter carry a fuel parameter;
     fuel exhaustion is the distinguished error `Err.outOfFuel`.  Failure
     theorems are stated for every fuel so they are fuel-independent. -/

inductive Err where
  | outOfFuel
  | indexError
  | typeError
  | valueError
  | attributeError
  | keyError
  | nameError
  | divergence
  | internalError
  deriving Repr, DecidableEq

/-- A directive parameter as produced by `parse_args`: a signed integer or a
quoted single character.  `Option PParam` adds Python's `None` ("unset"). -/
inductive PParam where
  | int (n : Int)
  | char (c : Char)
  deriving Repr, DecidableEq

/-- A runtime argument value (one element of the Python argument list). -/
inductive Val where
  | int (n : Int)
  | str (s : List Char)
  | bool (b : Bool)
  | float (q : Rat)
  | none
  deriving Repr, DecidableEq

/-- ASCII lowercasing of one character, the model of Python's `str.lower`
restricted to the ASCII range the directives use. -/
def pyLowerChar (c : Char) : Char :=
  match c with
  | 'A' => 'a' | 'B' => 'b' | 'C' => 'c' | 'D' => 'd' | 'E' => 'e'
  | 'F' => 'f' | 'G' => 'g' | 'H' => 'h' | 'I' => 'i' | 'J' => 'j'
  | 'K' => 'k' | 'L' => 'l' | 'M' => 'm' | 'N' => 'n' | 'O' => 'o'
  | 'P' => 'p' | 'Q' => 'q' | 'R' => 'r' | 'S' => 's' | 'T' => 't'
  | 'U' => 'u' | 'V' => 'v' | 'W' => 'w' | 'X' => 'x' | 'Y' => 'y'
  | 'Z' => 'z'
  | other => other

/-- ASCII uppercasing of one character, the model of Python's `str.upper`. -/
def pyUpperChar (c : Char) : Char :=
  match c with
  | 'a' => 'A' | 'b' => 'B' | 'c' => 'C' | 'd' => 'D' | 'e' => 'E'
  | 'f' => 'F' | 'g' => 'G' | 'h' => 'H' | 'i' => 'I' | 'j' => 'J'
  | 'k' => 'K' | 'l' => 'L' | 'm' => 'M' | 'n' => 'N' | 'o' => 'O'
  | 'p' => 'P' | 'q' => 'Q' | 'r' => 'R' | 's' => 'S' | 't' => 'T'
  | 'u' => 'U' | 'v' => 'V' | 'w' => 'W' | 'x' => 'X' | 'y' => 'Y'
  | 'z' => 'Z'
  | other => other

/-- The digit characters used by `'{:d}'.format` and friends (bases 2..16,
lowercase hex as Python's `{:x}` produces). -/
def digitChar (d : Nat) : Char :=
  match d with
  | 0 => '0' | 1 => '1' | 2 => '2' | 3 => '3' | 4 => '4'
  | 5 => '5' | 6 => '6' | 7 => '7' | 8 => '8' | 9 => '9'
  | 10 => 'a' | 11 => 'b' | 12 => 'c' | 13 => 'd' | 14 => 'e'
  | 15 => 'f'
  | _ => '*'

/-- Big-endian digit string of a natural number in base `b`, i.e. the model of
Python's `'{:d}'.format(n)` / `'{:b}'` / `'{:o}'` / `'{:x}'` on a
non-negative argument.  Returns `[]` for the degenerate bases `b < 2`, which
the four integer directives never use. -/
def natToDigits (b : Nat) (n : Nat) : List Char :=
  if _hb : b < 2 then []
  else if _h : n < b then [digitChar n]
  else natToDigits b (n / b) ++ [digitChar (n % b)]
termination_by n
decreasing_by
  exact Nat.div_lt_self (by omega) (by omega)

/-- Signed digit string, the model of `'{:d}'.format(n)` on an arbitrary
integer (Python prepends `-` for negatives). -/
def intStrB (b : Nat) (n : Int) : List Char :=
  if n < 0 then '-' :: natToDigits b n.natAbs else natToDigits b n.natAbs

/-- Model of Python's `str()` on the values of `Val`.  For floats the exact
rational's rendering stands in for Python's float repr; no claim inspects the
characters of a float rendering. -/
def pyStr : Val → List Char
  | .int n => intStrB 10 n
  | .str s => s
  | .bool b => if b then "True".data else "False".data
  | .float q => (toString q).data
  | .none => "None".data

/-- Model of Python's `repr()` on the values of `Val` (used by the `~s`
directive).  String quoting is modelled without escape processing; the other
values repr like they str. -/
def pyRepr : Val → List Char
  | .str s => '\'' :: s ++ ['\'']
  | v => pyStr v

/-- Python truthiness of a `Val`. -/
def pyTruthy : Val → Bool
  | .int n => n != 0
  | .str s => !s.isEmpty
  | .bool b => b
  | .float q => q != 0
  | .none => false

/-- Python's `v == 1` (used by the pluralization directive): numeric values
compare numerically, so `True`, `1` and the float `1.0` are all equal to 1. -/
def pyEqOne : Val → Bool
  | .int n => n == 1
  | .bool b => b
  | .float q => q == 1
  | _ => false

/-- Python's `v == '\n'` (used by the character directive): only the
one-character string equals it. -/
def pyIsNlStr : Val → Bool
  | .str s => s == ['\n']
  | _ => false

/-- Python list indexing `l[i]` with negative-index wrap-around: `some` on a
hit, `none` where Python raises IndexError. -/
def pyGet (l : List α) (i : Int) : Option α :=
  let j : Int := if i < 0 then i + l.length else i
  if j < 0 then Option.none else l.get? j.toNat

/-- Exact ceiling division `⌈a / b⌉` for `b ≠ 0`; the model of Python's
`math.ceil(a / b)` (whose float division is exact at the magnitudes the
directives handle). -/
def iceil (a b : Int) : Int :=
  if b < 0 then -(a.ediv (-b)) else -((-a).ediv b)

/-- Python falsiness of a parameter slot: `None` and the integer `0` are
falsy; character parameters (one-character strings) are always truthy. -/
def pFalsy : Option PParam → Bool
  | Option.none => true
  | some (.int n) => n == 0
  | some (.char _) => false

/-- Python's `a or b` on parameter slots, the combinator inside
`Formatter.get_params`. -/
def pyOr (a d : Option PParam) : Option PParam :=
  if pFalsy a then d else a

/-- `Formatter.get_params`: `list(a or b for a, b in zip_longest(params,
defaults))`, with `zip_longest` padding the shorter list with `None`. -/
def getParams : List (Option PParam) → List (Option PParam) → List (Option PParam)
  | [], ds => ds.map (fun d => pyOr Option.none d)
  | a :: rest, [] => pyOr a Option.none :: getParams rest []
  | a :: rest, d :: ds => pyOr a d :: getParams rest ds

/-- `get_params(default)[0]`: the single-parameter accessor used by the
newline, freshline and goto directives. -/
def param0 (ps : List (Option PParam)) (d : PParam) : Option PParam :=
  (getParams ps [some d]).headD Option.none

/-- Reads a parameter slot as an integer; a character there makes the
directive's arithmetic raise TypeError. -/
def asInt : Option PParam → Except Err Int
  | some (.int n) => .ok n
  | some (.char _) => .error .typeError
  | Option.none => .error .typeError

/-- `IntegerFormatter.commafy`: the grouped digit string of `m = abs(n)` with
group size implied by `e = base ** comma_int`.  `to_string(x, padded, e)` is
`fmt.format(e + x)[1:]` when `padded` (a zero-padded group of full width) and
`fmt.format(x)` otherwise (the leading, possibly shorter, group).
For `e ≤ 1` Python's loop diverges unless `m = 0`; the diverging case is kept
out of reach by the caller (`intfEmit` raises first). -/
def commafyGo (b e : Nat) (comma : Char) (m : Nat) : List Char :=
  if _he : e ≤ 1 then (if m = 0 then [digitChar 0] else [])
  else if _h : m < e then natToDigits b m
  else commafyGo b e comma (m / e) ++ comma :: (natToDigits b (e + m % e)).drop 1
termination_by m
decreasing_by
  exact Nat.div_lt_self (by omega) (by omega)

/-- `commafy(n, comma, comma_int)` for base `b` and group size `g`. -/
def commafy (b g : Nat) (comma : Char) (n : Int) : List Char :=
  commafyGo b (b ^ g) comma n.natAbs

/-- Python's `str.capitalize()`: first character uppercased, the rest
lowercased (ASCII model). -/
def pyCapitalize : List Char → List Char
  | [] => []
  | c :: rest => pyUpperChar c :: rest.map pyLowerChar

/-- Is this character a `\w` word character (ASCII model of the regex class
used by `string_capitalize`)? -/
def isWordChar (c : Char) : Bool := c.isAlphanum || c == '_'

/-- The state machine equivalent of `string_capitalize`: split on non-word
characters, `str.capitalize()` every word run, keep separators.  The Bool
records whether the previous character was a word character (i.e. whether we
are inside a run). -/
def stringCapGo : Bool → List Char → List Char
  | _, [] => []
  | prevWord, c :: rest =>
      (if isWordChar c then
        (if prevWord then pyLowerChar c else pyUpperChar c)
      else c) :: stringCapGo (isWordChar c) rest

/-- `string_capitalize(s)` from the source. -/
def stringCapitalize (s : List Char) : List Char := stringCapGo false s

/-- Which of the four integer directives (`~d ~b ~o ~x`) a node is. -/
inductive IntKind where
  | dec | bin | oct | hex
  deriving Repr, DecidableEq

def IntKind.base : IntKind → Nat
  | .dec => 10
  | .bin => 2
  | .oct => 8
  | .hex => 16

/-- A parsed directive node.  Every variant carries its parameter list and
the two flags; the three bracket-style variants additionally carry the raw
nested node list (including clause-separator nodes, exactly as the Python
constructors receive it). -/
inductive Node where
  | text (s : List Char)
  | character (ps : List (Option PParam)) (a co : Bool)
  | newline (ps : List (Option PParam)) (a co : Bool)
  | freshline (ps : List (Option PParam)) (a co : Bool)
  | number (ps : List (Option PParam)) (a co : Bool)
  | intf (k : IntKind) (ps : List (Option PParam)) (a co : Bool)
  | objf (aesthetic : Bool) (ps : List (Option PParam)) (a co : Bool)
  | goto (ps : List (Option PParam)) (a co : Bool)
  | plural (ps : List (Option PParam)) (a co : Bool)
  | semicolon (ps : List (Option PParam)) (a co : Bool)
  | conditional (ps : List (Option PParam)) (a co : Bool) (inner : List Node)
  | caseConv (ps : List (Option PParam)) (a co : Bool) (inner : List Node)
  | iteration (ps : List (Option PParam)) (a co : Bool) (inner : List Node)
  | endCond (ps : List (Option PParam)) (a co : Bool)
  | endCase (ps : List (Option PParam)) (a co : Bool)

/-- `Conditional.__init__`: split the nested node list at clause-separator
nodes.  Returns the delimiter list (entry i is the separator node's flags
that OPENED clause i, `none` for the first clause) and the clause list, in
the same one-to-one correspondence the Python code builds. -/
def splitAux : Option (Bool × Bool) → List Node → List (Option (Bool × Bool)) × List (List Node)
  | delim, [] => ([delim], [[]])
  | delim, .semicolon _ sa sc :: rest =>
      let (ds, cs) := splitAux (some (sa, sc)) rest
      (delim :: ds, [] :: cs)
  | delim, n :: rest =>
      let (ds, cs) := splitAux delim rest
      (ds, match cs with
           | c :: cs2 => (n :: c) :: cs2
           | [] => [[n]])

def splitClauses (fs : List Node) : List (Option (Bool × Bool)) × List (List Node) :=
  splitAux Option.none fs

/-- `Text.emit`: print the literal run; `self.text[-1]` raises IndexError on
an empty run (the parser never builds one, but the interpreter is total). -/
def textEmit (s : List Char) (pos : Int) (_nl : Bool) :
    Except Err (List Char × Int × Bool) :=
  match s.getLast? with
  | some c => .ok (s, pos, c == '\n')
  | Option.none => .error .indexError

/-- `Character.emit`: print `args[pos]`, advance, flag is `args[pos] == '\n'`. -/
def characterEmit (args : List Val) (pos : Int) (_nl : Bool) :
    Except Err (List Char × Int × Bool) :=
  match pyGet args pos with
  | some v => .ok (pyStr v, pos + 1, pyIsNlStr v)
  | Option.none => .error .indexError

/-- `Number.emit` (`~r`): print `args[pos]` verbatim, advance, and always
report a non-newline last character. -/
def numberEmit (args : List Val) (pos : Int) (_nl : Bool) :
    Except Err (List Char × Int × Bool) :=
  match pyGet args pos with
  | some v => .ok (pyStr v, pos + 1, false)
  | Option.none => .error .indexError

/-- `Newline.emit` (`~%`): `range(times)` newlines (none when `times ≤ 0`),
flag always true. -/
def newlineEmit (ps : List (Option PParam)) (pos : Int) (_nl : Bool) :
    Except Err (List Char × Int × Bool) := do
  let t ← asInt (param0 ps (.int 1))
  .ok (List.replicate t.toNat '\n', pos, true)

/-- `Freshline.emit` (`~&`): one newline if the flag is down, then
`range(times - 1)` more; flag always true. -/
def freshlineEmit (ps : List (Option PParam)) (pos : Int) (nl : Bool) :
    Except Err (List Char × Int × Bool) := do
  let t ← asInt (param0 ps (.int 1))
  .ok ((if nl then [] else ['\n']) ++ List.replicate (t - 1).toNat '\n', pos, true)

/-- `Goto.emit` (`~*`): at-flag jumps to the absolute parameter (ignoring the
colon flag); otherwise move forward, or backward under the colon flag. -/
def gotoEmit (ps : List (Option PParam)) (a co : Bool) (pos : Int) (nl : Bool) :
    Except Err (List Char × Int × Bool) := do
  let n ← asInt (param0 ps (.int (if a then 0 else 1)))
  if a then .ok ([], n, nl)
  else .ok ([], (if co then pos - n else pos + n), nl)

/-- `Plural.emit` (`~p`): optionally step back one argument, compare the
inspected value to 1 with Python `==`, print the chosen ending, and land one
past the inspected position.  The returned flag is
`newline and ending == ''`. -/
def pluralEmitAt (a : Bool) (args : List Val) (pos2 : Int) (nl : Bool) :
    Except Err (List Char × Int × Bool) :=
  match pyGet args pos2 with
  | Option.none => .error .indexError
  | some v =>
      .ok ((if pyEqOne v then (if a then ['y'] else [])
            else (if a then "ies".data else ['s'])),
           pos2 + 1,
           nl && (if pyEqOne v then (if a then ['y'] else [])
                  else (if a then "ies".data else ['s'])).isEmpty)

def pluralEmit (a co : Bool) (args : List Val) (pos : Int) (nl : Bool) :
    Except Err (List Char × Int × Bool) :=
  pluralEmitAt a args (if co then pos - 1 else pos) nl

/-- Reads the value consumed by an integer directive as an integer.  Python:
booleans are ints; a float survives the sign test but makes `'{:d}'.format`
raise ValueError; a string or None breaks the `n < 0` comparison with
TypeError. -/
def valAsIntArg : Val → Except Err Int
  | .int n => .ok n
  | .bool b => .ok (if b then 1 else 0)
  | .float _ => .error .valueError
  | .str _ => .error .typeError
  | .none => .error .typeError

/-- The `sign + digits` core of `IntegerFormatter.emit`: with the colon flag
the grouped `commafy` string (whose group separator only raises if a group
boundary is actually concatenated; a non-positive group size makes Python
raise — or loop forever, modelled as `.divergence` — unless the magnitude is
zero), otherwise the plain signed rendering. -/
def intDigits (k : IntKind) (co : Bool) (prm : List (Option PParam)) (n : Int) :
    Except Err (List Char) :=
  if co then
    match asInt (prm.getD 3 Option.none) with
    | .error e => .error e
    | .ok commaInt =>
      if commaInt < 0 then
        .error .valueError      -- base ** negative is a float: '{:d}' raises
      else if commaInt = 0 ∧ n.natAbs ≠ 0 then
        .error .divergence      -- group size 0: the while loop never ends
      else
        match prm.getD 2 Option.none with
        | some (.char cc) => .ok (commafy k.base commaInt.toNat cc n)
        | _ =>
            if n.natAbs < k.base ^ commaInt.toNat then
              .ok (commafy k.base commaInt.toNat ' ' n)
            else .error .typeError
  else .ok (intStrB k.base n)

/-- `IntegerFormatter.emit` (`~d ~b ~o ~x`).  Mirrors the Python control
flow: read `args[pos]`; unpack exactly four parameters; build
`sign + digits` (note the non-colon path formats the SIGNED value, so a
negative argument gets a doubled sign, as the source does); pad on the left.
An integer-valued pad character is multiplied arithmetically and printed as a
number, again as Python does. -/
def intfEmit (k : IntKind) (ps : List (Option PParam)) (a co : Bool)
    (args : List Val) (pos : Int) (_nl : Bool) :
    Except Err (List Char × Int × Bool) := do
  let v ← match pyGet args pos with
          | some v => Except.ok v
          | Option.none => Except.error Err.indexError
  if ps.length > 4 then .error .valueError
  else do
    let prm := getParams ps [some (.int 0), some (.char ' '), some (.char ','), some (.int 3)]
    let n ← valAsIntArg v
    let sign : List Char := if n < 0 then ['-'] else if a then ['+'] else []
    let digits ← intDigits k co prm n
    let base := sign ++ digits
    let col ← asInt (prm.getD 0 Option.none)
    let pad : List Char ←
      match prm.getD 1 Option.none with
      | some (.char pc) => Except.ok (List.replicate (col - base.length).toNat pc)
      | some (.int m) => Except.ok (intStrB 10 (m * (col - base.length)))
      | Option.none => Except.error Err.typeError
    .ok (pad ++ base, pos + 1, false)

/-- The padding length expression of `ObjectFormatter.emit`:
`minpad + colinc * ceil((mincol - (len(s) + minpad)) / colinc)` (an Int that
may be negative; Python's string repetition clamps it at zero). -/
def objPad (mincol colinc minpad : Int) (len : Nat) : Int :=
  minpad + colinc * iceil (mincol - (len + minpad)) colinc

/-- The padded text of `ObjectFormatter.emit`: padding before the rendered
text under the at flag, after it otherwise. -/
def objText (s : List Char) (mincol colinc minpad : Int) (padchar : Char)
    (a : Bool) : List Char :=
  let padding := List.replicate (objPad mincol colinc minpad s.length).toNat padchar
  if a then padding ++ s else s ++ padding

/-- `ObjectFormatter.emit` (`~a ~s`).  Renders via `str` (aesthetic) or
`repr` (standard), pads, prints, then inspects `text[-1]` — which raises
IndexError when the padded text is empty.  A zero column increment raises
ZeroDivisionError (modelled as `.typeError`); a character-valued numeric
parameter or an integer pad character breaks the arithmetic / concatenation
with TypeError. -/
def objectEmit (aesthetic : Bool) (ps : List (Option PParam)) (a : Bool)
    (args : List Val) (pos : Int) (_nl : Bool) :
    Except Err (List Char × Int × Bool) := do
  if ps.length > 4 then .error .valueError
  else do
    let prm := getParams ps [some (.int 0), some (.int 1), some (.int 0), some (.char ' ')]
    let mincol ← asInt (prm.getD 0 Option.none)
    let colinc ← asInt (prm.getD 1 Option.none)
    let minpad ← asInt (prm.getD 2 Option.none)
    let v ← match pyGet args pos with
            | some v => Except.ok v
            | Option.none => Except.error Err.indexError
    let s := if aesthetic then pyStr v else pyRepr v
    if colinc = 0 then .error .typeError
    else do
      let text ← match prm.getD 3 Option.none with
                 | some (.char pc) => Except.ok (objText s mincol colinc minpad pc a)
                 | _ => Except.error Err.typeError
      match text.getLast? with
      | some c => .ok (text, pos + 1, c == '\n')
      | Option.none => .error .indexError

/-- Python's `args[pos] < len(clauses)` on a heterogeneous value: numbers and
booleans compare; strings and None raise TypeError. -/
def cmpLtNat (v : Val) (k : Nat) : Except Err Bool :=
  match v with
  | .int n => .ok (decide (n < k))
  | .bool b => .ok (decide ((if b then (1 : Int) else 0) < k))
  | .float q => .ok (decide (q < k))
  | .str _ => .error .typeError
  | .none => .error .typeError

/-- Using a value as a Python list index: ints and booleans work; a float
raises TypeError. -/
def asClauseIdx (v : Val) : Except Err Int :=
  match v with
  | .int n => .ok n
  | .bool b => .ok (if b then 1 else 0)
  | _ => .error .typeError

mutual

/-- `Formatter.emit` dispatch for one node; fuel decreases on every nested
call.  The output text is returned rather than written, which coincides with
the source's capture mode (`file=None`) and threads through bracket
directives exactly as their `emit(...)` calls do. -/
def emitNodeF : Nat → Node → List Val → Int → Bool → Except Err (List Char × Int × Bool)
  | 0, _, _, _, _ => .error .outOfFuel
  | _fuel + 1, .text s, _, pos, nl => textEmit s pos nl
  | _fuel + 1, .character _ _ _, args, pos, nl => characterEmit args pos nl
  | _fuel + 1, .newline ps _ _, _, pos, nl => newlineEmit ps pos nl
  | _fuel + 1, .freshline ps _ _, _, pos, nl => freshlineEmit ps pos nl
  | _fuel + 1, .number _ _ _, args, pos, nl => numberEmit args pos nl
  | _fuel + 1, .intf k ps a co, args, pos, nl => intfEmit k ps a co args pos nl
  | _fuel + 1, .objf ae ps a _, args, pos, nl => objectEmit ae ps a args pos nl
  | _fuel + 1, .goto ps a co, _, pos, nl => gotoEmit ps a co pos nl
  | _fuel + 1, .plural _ a co, args, pos, nl => pluralEmit a co args pos nl
  | _fuel + 1, .semicolon _ _ _, _, _, _ =>
      .error .internalError    -- "Trying to emit a delimiter."
  | _fuel + 1, .endCond _ _ _, _, _, _ =>
      .error .internalError    -- "Trying to emit EndConditional."
  | _fuel + 1, .endCase _ _ _, _, _, _ =>
      .error .internalError    -- "Trying to emit EndCaseConversion."
  | _fuel + 1, .iteration _ _ _ _, _, _, _ =>
      .error .nameError        -- the stub reads an unbound name `formatters`
  | fuel + 1, .conditional _ a co inner, args, pos, nl =>
      let cs := (splitClauses inner).2
      let ds := (splitClauses inner).1
      if !a && !co then
        match pyGet args pos with
        | Option.none => .error .indexError
        | some v => do
            let inRange ← cmpLtNat v cs.length
            if inRange then do
              let idx ← asClauseIdx v
              match pyGet cs idx with
              | some clause => emitListF fuel clause args (pos + 1) nl
              | Option.none => .error .indexError
            else
              match ds.getLast? with
              | some (some (_, dcolon)) =>
                  emitListF fuel (if dcolon then cs.getLastD [] else []) args (pos + 1) nl
              | some Option.none => .error .attributeError  -- None.colon: no separator at all
              | Option.none => .error .internalError        -- delimiters is never empty
      else if co && !a then
        match pyGet args pos with
        | Option.none => .error .indexError
        | some v =>
            if pyTruthy v then
              match cs.get? 1 with
              | some clause => emitListF fuel clause args (pos + 1) nl
              | Option.none => .error .indexError           -- clauses[1] on a 1-clause body
            else emitListF fuel (cs.headD []) args (pos + 1) nl
      else if a && !co then
        match pyGet args pos with
        | Option.none => .error .indexError
        | some v =>
            if pyTruthy v then emitListF fuel (cs.headD []) args pos nl
            else .ok ([], pos + 1, nl)
      else
        -- both flags: Conditional.emit falls off the end returning None,
        -- which the caller's tuple unpacking turns into a TypeError
        .error .typeError
  | fuel + 1, .caseConv _ a co inner, args, pos, nl =>
      match emitListF fuel inner args pos nl with
      | .error e => .error e
      | .ok (s, p, nl2) =>
          .ok ((if !a && !co then s.map pyLowerChar
                else if co && !a then stringCapitalize s
                else if a && !co then pyCapitalize s
                else s.map pyUpperChar), p, nl2)

/-- The interpreter loop `emit(formatters, args, pos, newline)`: fold every
node's emission, concatenating output and threading cursor and flag. -/
def emitListF : Nat → List Node → List Val → Int → Bool → Except Err (List Char × Int × Bool)
  | 0, _, _, _, _ => .error .outOfFuel
  | _fuel + 1, [], _, pos, nl => .ok ([], pos, nl)
  | fuel + 1, n :: ns, args, pos, nl =>
      match emitNodeF fuel n args pos nl with
      | .error e => .error e
      | .ok (o1, p1, nl1) =>
          match emitListF fuel ns args p1 nl1 with
          | .error e => .error e
          | .ok (o2, p2, nl2) => .ok (o1 ++ o2, p2, nl2)

end

/-- The maximal digit run starting at `p` (the `\d+` part of `arg_pat`). -/
def takeDigits (s : List Char) (p : Nat) : List Char × Nat :=
  let run := (s.drop p).takeWhile (fun c => c.isDigit)
  (run, p + run.length)

/-- Numeric value of a digit run. -/
def digitsToNat (ds : List Char) : Nat :=
  ds.foldl (fun acc c => acc * 10 + (c.toNat - 48)) 0

/-- One match of `arg_pat = (-?\d+)|('.)|()` at position `p`: the parameter
to append (Python `None` for the always-successful empty alternative) and
the match end.  The regex `.` does not match a newline. -/
def matchArg (s : List Char) (p : Nat) : Option PParam × Nat :=
  match s.get? p with
  | some '-' =>
      let (ds, p2) := takeDigits s (p + 1)
      if ds.isEmpty then (Option.none, p)
      else (some (.int (-(digitsToNat ds : Int))), p2)
  | some '\'' =>
      match s.get? (p + 1) with
      | some c => if c = '\n' then (Option.none, p) else (some (.char c), p + 2)
      | Option.none => (Option.none, p)
  | some c =>
      if c.isDigit then
        let (ds, p2) := takeDigits s p
        (some (.int (digitsToNat ds : Int)), p2)
      else (Option.none, p)
  | Option.none => (Option.none, p)

/-- The loop of `parse_args`: match one element, append it, then inspect
`spec[p]` — an IndexError when the match ends at end-of-string — and
continue past a comma.  Fuel-recursive like the rest of the parser (each
iteration consumes at least the comma, so the caller's fuel is ample). -/
def parseArgsGo : Nat → List Char → Nat → List (Option PParam) →
    Except Err (List (Option PParam) × Nat)
  | 0, _, _, _ => .error .outOfFuel
  | fuel + 1, s, p, acc =>
    if p < s.length then
      let mr := matchArg s p
      let acc2 := acc ++ [mr.1]
      match s.get? mr.2 with
      | some c =>
          if c = ',' then parseArgsGo fuel s (mr.2 + 1) acc2
          else .ok (acc2, mr.2)
      | Option.none => .error .indexError
    else .ok (acc, p)

/-- `parse_args(spec, pos)`. -/
def parseArgsF (fuel : Nat) (s : List Char) (p : Nat) :
    Except Err (List (Option PParam) × Nat) :=
  parseArgsGo fuel s p []

/-- `parse_at_colon`: the regex `[:@]{0,2}` takes up to two flag characters;
returns (at, colon, new position). -/
def parseAtColon (s : List Char) (p : Nat) : Bool × Bool × Nat :=
  let run := ((s.drop p).take 2).takeWhile (fun c => c == ':' || c == '@')
  (run.contains '@', run.contains ':', p + run.length)

/-- The two bracket-terminator classes registered in `ends` (`]` for the
conditional, `)` for case conversion; the iteration bracket `{` registers
nothing, so looking it up raises KeyError). -/
inductive EndKind where
  | condE | caseE
  deriving Repr, DecidableEq

/-- `isinstance(formatter, end)` for the requested terminator class. -/
def isEndFor : Option EndKind → Node → Bool
  | some .condE, .endCond _ _ _ => true
  | some .caseE, .endCase _ _ _ => true
  | _, _ => false

/-- `formatter.colon` (read off the terminator node when a bracket closes). -/
def colonOf : Node → Bool
  | .text _ => false
  | .character _ _ co => co
  | .newline _ _ co => co
  | .freshline _ _ co => co
  | .number _ _ co => co
  | .intf _ _ _ co => co
  | .objf _ _ _ co => co
  | .goto _ _ co => co
  | .plural _ _ co => co
  | .semicolon _ _ co => co
  | .conditional _ _ co _ => co
  | .caseConv _ _ co _ => co
  | .iteration _ _ co _ => co
  | .endCond _ _ co => co
  | .endCase _ _ co => co

/-- `parse_spec`'s two result shapes: the bare node list returned when the
scan runs off the end of the string, and the (nodes, position, terminator
colon flag) triple returned when the requested terminator is found. -/
inductive ParseOut where
  | noEnd (ns : List Node)
  | ended (ns : List Node) (p : Nat) (endColon : Bool)

/-- `Text(spec[p_start:p])` flushing of a pending literal run. -/
def flushText (s : List Char) (a b : Nat) (acc : List Node) : List Node :=
  if b > a then acc ++ [.text ((s.drop a).take (b - a))] else acc

mutual

/-- `parse_directive(spec, pos, end)`: parameters, then modifiers, then
dispatch on the lowercased directive character.  `~~` yields a literal Text;
`[` and `(` recurse with their registered terminator class — when the
recursion returns the bare-list shape, the caller's 3-tuple unpacking (and
the constructor/loop that would follow) fails, modelled as `.valueError`;
`{` fails immediately because `ends` has no entry for it; an unknown
character is a KeyError on the `classes` table. -/
def parseDirectiveF : Nat → List Char → Nat → Option EndKind → Except Err (Node × Nat)
  | 0, _, _, _ => .error .outOfFuel
  | fuel + 1, s, pos, _ek => do
      let (args, p) ← parseArgsF (fuel + 1) s pos
      let (a, co, p2) := parseAtColon s p
      match s.get? p2 with
      | Option.none => .error .indexError
      | some ch =>
        match pyLowerChar ch with
        | '~' => .ok (.text ['~'], p2 + 1)
        | '[' =>
          match ← parseSpecGoF fuel s (p2 + 1) (p2 + 1) [] (some .condE) with
          | .ended ns p3 _ => .ok (.conditional args a co ns, p3)
          | .noEnd _ => .error .valueError
        | '(' =>
          match ← parseSpecGoF fuel s (p2 + 1) (p2 + 1) [] (some .caseE) with
          | .ended ns p3 _ => .ok (.caseConv args a co ns, p3)
          | .noEnd _ => .error .valueError
        | '{' => .error .keyError
        | 'c' => .ok (.character args a co, p2 + 1)
        | '%' => .ok (.newline args a co, p2 + 1)
        | '&' => .ok (.freshline args a co, p2 + 1)
        | 'r' => .ok (.number args a co, p2 + 1)
        | 'd' => .ok (.intf .dec args a co, p2 + 1)
        | 'b' => .ok (.intf .bin args a co, p2 + 1)
        | 'o' => .ok (.intf .oct args a co, p2 + 1)
        | 'x' => .ok (.intf .hex args a co, p2 + 1)
        | 'a' => .ok (.objf true args a co, p2 + 1)
        | 's' => .ok (.objf false args a co, p2 + 1)
        | '*' => .ok (.goto args a co, p2 + 1)
        | 'p' => .ok (.plural args a co, p2 + 1)
        | ';' => .ok (.semicolon args a co, p2 + 1)
        | ']' => .ok (.endCond args a co, p2 + 1)
        | ')' => .ok (.endCase args a co, p2 + 1)
        | _ => .error .keyError

/-- The scanning loop of `parse_spec(spec, pos, end)`: `pStart` marks the
start of the pending literal run, `acc` the nodes collected so far.  Hitting
end-of-string flushes and returns the bare list (even when a terminator was
requested); a directive node matching the requested terminator class returns
the `ended` triple. -/
def parseSpecGoF : Nat → List Char → Nat → Nat → List Node → Option EndKind → Except Err ParseOut
  | 0, _, _, _, _, _ => .error .outOfFuel
  | fuel + 1, s, pStart, p, acc, ek =>
      match s.get? p with
      | Option.none => .ok (.noEnd (flushText s pStart p acc))
      | some c =>
        if c = '~' then do
          let acc2 := flushText s pStart p acc
          let (node, p2) ← parseDirectiveF fuel s (p + 1) ek
          if isEndFor ek node then .ok (.ended acc2 p2 (colonOf node))
          else parseSpecGoF fuel s p2 p2 (acc2 ++ [node]) ek
        else parseSpecGoF fuel s pStart (p + 1) acc ek

end

/-- `parse_spec(spec, 0)` at the top level (no terminator requested), with
ample fuel for the string's length.  The `ended` shape cannot occur when no
terminator class is given. -/
def parseFmt (str : String) : Except Err (List Node) :=
  let s := str.data
  match parseSpecGoF (2 * s.length + 8) s 0 0 [] Option.none with
  | .ok (.noEnd ns) => .ok ns
  | .ok (.ended _ _ _) => .error .internalError
  | .error e => .error e

/-- `format(spec, *args)`: parse, then emit from cursor 0 with the newline
flag initially true, capturing the output. -/
def formatF (spec : String) (args : List Val) : Except Err String := do
  let ns ← parseFmt spec
  let (out, _, _) ← emitListF (1000 + 10 * spec.length) ns args 0 true
  .ok (String.mk out)

/- ------------------------------------------------------------------ -/
/- Theorems.                                                          -/
/- ------------------------------------------------------------------ -/

theorem pyGet_none_iff (l : List α) (i : Int) :
    pyGet l i = Option.none ↔ (i < -(l.length : Int) ∨ (l.length : Int) ≤ i) := by
  unfold pyGet
  by_cases hneg : i < 0
  · simp only [if_pos hneg]
    by_cases hj : i + (l.length : Int) < 0
    · simp only [if_pos hj]
      constructor
      · intro _
        omega
      · intro _
        trivial
    · simp only [if_neg hj, List.get?_eq_none]
      omega
  · simp only [if_neg hneg, List.get?_eq_none]
    omega

theorem pyGet_mem {l : List α} {i : Int} {v : α} (h : pyGet l i = some v) : v ∈ l := by
  unfold pyGet at h
  by_cases hneg : i < 0
  · simp only [if_pos hneg] at h
    split at h
    · exact Option.noConfusion h
    · exact List.get?_mem h
  · simp only [if_neg hneg] at h
    exact List.get?_mem h

/-- C1: with no clause separator at all, an out-of-range index makes
`Conditional.emit` evaluate `None.colon` and crash with AttributeError
instead of emitting nothing: `format("~[Siamese~]", [1])` parses to a
single-clause conditional and its emission errors. -/
theorem conditional_no_separator_crash :
    parseFmt "~[Siamese~]" =
      .ok [.conditional [Option.none] false false [.text "Siamese".data]] ∧
    emitNodeF 9 (.conditional [Option.none] false false [.text "Siamese".data])
      [.int 1] 0 true = .error .attributeError :=
  ⟨rfl, rfl⟩

/-- C2 counterexample: after `~:*` the cursor is -1, and `~c` silently reads
the LAST argument (Python negative indexing) instead of failing: the pass
succeeds and prints "b". -/
theorem goto_negative_cursor_silent_read :
    parseFmt "~:*~c" = .ok [.goto [Option.none] false true, .character [Option.none] false false] ∧
    emitListF 9 [.goto [Option.none] false true, .character [Option.none] false false]
      [.str "a".data, .str "b".data] 0 true = .ok ("b".data, 0, false) :=
  ⟨rfl, rfl⟩

/-- C2 amended: a value-consuming directive (here the character directive,
whose read is the generic `args[pos]`) fails with IndexError exactly when the
cursor is at or past the length OR below minus the length; cursor values in
[-len, -1] silently read from the end of the list. -/
theorem character_read_bounds :
    (∀ (l : List Val) (i : Int),
       pyGet l i = Option.none ↔ (i < -(l.length : Int) ∨ (l.length : Int) ≤ i)) ∧
    (∀ (args : List Val) (pos : Int) (nl : Bool),
       characterEmit args pos nl = .error .indexError ↔
         (pos < -(args.length : Int) ∨ (args.length : Int) ≤ pos)) := by
  refine ⟨fun l i => pyGet_none_iff l i, fun args pos nl => ?_⟩
  unfold characterEmit
  rcases h : pyGet args pos with _ | v
  · simpa using (pyGet_none_iff args pos).mp h
  · simp only []
    constructor
    · intro hbad
      exact Except.noConfusion hbad
    · intro hrange
      rw [(pyGet_none_iff args pos).mpr hrange] at h
      exact Option.noConfusion h

/-- C3 counterexample: `~0%` — a newline directive with the explicit count
parameter 0 — emits ONE newline, because `get_params`'s `a or b` treats the
explicit integer 0 as falsy and substitutes the default 1. -/
theorem newline_explicit_zero_emits_one :
    parseFmt "~0%" = .ok [.newline [some (.int 0)] false false] ∧
    newlineEmit [some (.int 0)] 0 false = .ok (['\n'], 0, true) :=
  ⟨rfl, rfl⟩

/-- C3 amended: a per-variant default is substituted when the parameter is
unset OR when it is the explicit integer 0 (Python falsiness); any other
explicit value is used as given.  Consequently a newline directive with an
explicit count of 0 emits one newline (the default), not zero. -/
theorem param_default_on_falsy :
    (∀ (a d : Option PParam),
       pyOr a d = if a = Option.none ∨ a = some (.int 0) then d else a) ∧
    (∀ (pos : Int) (nl : Bool),
       newlineEmit [some (.int 0)] pos nl = .ok (['\n'], pos, true)) := by
  constructor
  · intro a d
    rcases a with _ | p
    · simp [pyOr, pFalsy]
    · rcases p with n | c
      · by_cases h : n = 0 <;> simp [pyOr, pFalsy, h]
      · simp [pyOr, pFalsy]
  · intro pos nl
    rfl

/-- C4: `Plural.emit` compares with Python `==`, under which the float 1.0
IS equal to the integer 1, so `format("pig~p", [1.0])` prints no `s` —
contradicting the directive's own docstring ("If arg is a floating-point
1.0, the s is printed"). -/
theorem plural_float_one_no_s :
    parseFmt "pig~p" = .ok [.text "pig".data, .plural [Option.none] false false] ∧
    emitListF 9 [.text "pig".data, .plural [Option.none] false false]
      [.float 1] 0 true = .ok ("pig".data, 1, false) ∧
    pyEqOne (.float 1) = true :=
  ⟨rfl, rfl, rfl⟩

/-- C9 counterexample: a conditional carrying BOTH flags parses successfully
(no parse-time flag validation exists), refuting "parsing fails with a
ParseError". -/
theorem both_flags_conditional_parses :
    parseFmt "~:@[x~]" = .ok [.conditional [Option.none] true true [.text "x".data]] :=
  rfl

/-- C9 amended: the invalid at+colon flag combination on a conditional is not
rejected at parse time — `~:@[x~]` parses to a both-flag conditional node —
and the error only surfaces at emission time: emitting any both-flag
conditional fails (Conditional.emit falls off the end returning None, which
the interpreter's tuple unpacking rejects). -/
theorem both_flags_conditional_fails_at_emit :
    parseFmt "~:@[x~]" = .ok [.conditional [Option.none] true true [.text "x".data]] ∧
    (∀ (fuel : Nat) (ps : List (Option PParam)) (inner : List Node)
       (args : List Val) (pos : Int) (nl : Bool),
       ∃ e, emitNodeF fuel (.conditional ps true true inner) args pos nl = .error e) := by
  refine ⟨rfl, fun fuel ps inner args pos nl => ?_⟩
  match fuel with
  | 0 => exact ⟨.outOfFuel, rfl⟩
  | fuel + 1 => exact ⟨.typeError, by simp [emitNodeF]⟩

/-- C10: the aesthetic/standard object directive can never successfully
produce empty output — whenever the padded text is empty the final
`text[-1]` inspection raises IndexError (concretely: `~a` on the empty
string with all-default parameters errors), and every successful emission
returns nonempty text. -/
theorem object_formatter_never_empty :
    objectEmit true [Option.none] false [.str []] 0 true = .error .indexError ∧
    (∀ (ae : Bool) (ps : List (Option PParam)) (a : Bool) (args : List Val)
       (pos : Int) (nl : Bool) (out : List Char) (p : Int) (q : Bool),
       objectEmit ae ps a args pos nl = .ok (out, p, q) → out ≠ []) := by
  refine ⟨rfl, fun ae ps a args pos nl out p q h => ?_⟩
  unfold objectEmit at h
  simp only [bind, Except.bind] at h
  repeat' first
    | exact Except.noConfusion h
    | split at h
  all_goals
    intro hnil
    subst hnil
    simp_all

/-- C10 witness: a successful concrete emission, whose output the theorem
proves nonempty. -/
theorem object_formatter_never_empty_witness : "v".data ≠ ([] : List Char) :=
  object_formatter_never_empty.2 true [] false [.str "v".data] 0 true
    "v".data 1 false rfl

/-- Ceiling division bound: for a positive divisor, `b * ⌈a/b⌉ ≥ a`. -/
theorem le_mul_iceil (a b : Int) (hb : 1 ≤ b) : a ≤ b * iceil a b := by
  unfold iceil
  rw [if_neg (by omega)]
  have hdm : b * ((-a).ediv b) + (-a).emod b = -a := Int.ediv_add_emod (-a) b
  have hr : 0 ≤ (-a).emod b := Int.emod_nonneg (-a) (by omega)
  rw [mul_neg]
  omega

/-- C5: for any rendered text and parameters with `minCol ≥ 0`, `colInc ≥ 1`,
`minPad ≥ 0`, the object formatter's padded text has length at least
`minCol`; the number of added pad characters is `max 0 (minPad + colInc *
ceil((minCol - (len + minPad)) / colInc))`; and the at flag places the
padding before the text, otherwise after it. -/
theorem object_justification (s : List Char) (mincol colinc minpad : Int)
    (pc : Char) (hcol : 0 ≤ mincol) (hinc : 1 ≤ colinc) (hpad : 0 ≤ minpad) :
    (∀ a : Bool,
       mincol ≤ (objText s mincol colinc minpad pc a).length ∧
       ((objText s mincol colinc minpad pc a).length : Int) =
         s.length + max 0 (objPad mincol colinc minpad s.length)) ∧
    objText s mincol colinc minpad pc true =
      List.replicate (objPad mincol colinc minpad s.length).toNat pc ++ s ∧
    objText s mincol colinc minpad pc false =
      s ++ List.replicate (objPad mincol colinc minpad s.length).toNat pc := by
  have hkey : mincol - (s.length : Int) ≤ objPad mincol colinc minpad s.length := by
    unfold objPad
    have hm := le_mul_iceil (mincol - ((s.length : Int) + minpad)) colinc hinc
    omega
  have hlen : ∀ a : Bool, ((objText s mincol colinc minpad pc a).length : Int) =
      s.length + max 0 (objPad mincol colinc minpad s.length) := by
    intro a
    have : (objText s mincol colinc minpad pc a).length =
        s.length + (objPad mincol colinc minpad s.length).toNat := by
      cases a <;> simp [objText] <;> omega
    rw [this]
    push_cast
    omega
  refine ⟨fun a => ⟨?_, hlen a⟩, by simp [objText], by simp [objText]⟩
  have := hlen a
  omega

/-- C5 witness. -/
theorem object_justification_witness :
    (0 : Int) ≤ 5 ∧ (1 : Int) ≤ 1 ∧ (0 : Int) ≤ 0 ∧
    ((5 : Int) ≤ ((objText "hi".data 5 1 0 '*' false).length : Int) ∧
     ((objText "hi".data 5 1 0 '*' false).length : Int) =
       ("hi".data.length : Int) + max 0 (objPad 5 1 0 "hi".data.length)) :=
  ⟨by decide, by decide, by decide,
   ((object_justification "hi".data 5 1 0 '*' (by decide) (by decide) (by decide)).1 false)⟩

/-- Exactly-g-digit zero-padded rendering (what `fmt.format(e + x)[1:]`
produces for a group). -/
def padDig (b : Nat) : Nat → Nat → List Char
  | 0, _ => []
  | g + 1, x => padDig b g (x / b) ++ [digitChar (x % b)]

theorem natToDigits_split (b : Nat) (hb : 2 ≤ b) :
    ∀ (g q x : Nat), 0 < q → x < b ^ g →
      natToDigits b (q * b ^ g + x) = natToDigits b q ++ padDig b g x := by
  intro g
  induction g with
  | zero =>
      intro q x _hq hx
      have hx0 : x = 0 := by simpa using hx
      subst hx0
      simp [padDig]
  | succ g ih =>
      intro q x hq hx
      have hb0 : 0 < b := by omega
      have hpow : b ^ (g + 1) = b ^ g * b := pow_succ b g
      have hbe : b ≤ b ^ (g + 1) := by
        calc b = b ^ 1 := (pow_one b).symm
        _ ≤ b ^ (g + 1) := Nat.pow_le_pow_right (by omega) (by omega)
      have hqe : b ^ (g + 1) ≤ q * b ^ (g + 1) := Nat.le_mul_of_pos_left _ hq
      have hNb : ¬ (q * b ^ (g + 1) + x < b) := by omega
      have hN : q * b ^ (g + 1) + x = x + q * b ^ g * b := by
        rw [hpow]; ring
      rw [natToDigits, dif_neg (by omega : ¬ b < 2), dif_neg hNb]
      rw [hN, Nat.add_mul_div_right _ _ hb0, Nat.add_mul_mod_self_right]
      have hxb : x / b < b ^ g := by
        rw [Nat.div_lt_iff_lt_mul hb0]
        omega
      have hih := ih q (x / b) hq hxb
      rw [Nat.add_comm (x / b) (q * b ^ g), hih]
      simp [padDig]

theorem natToDigits_one (b : Nat) (hb : 2 ≤ b) :
    natToDigits b 1 = [digitChar 1] := by
  rw [natToDigits, dif_neg (by omega : ¬ b < 2), dif_pos (by omega : 1 < b)]

/-- `to_string(x, True, e)[1:]`: the zero-padded group. -/
theorem natToDigits_dropPadded (b : Nat) (hb : 2 ≤ b) (g x : Nat)
    (hx : x < b ^ g) :
    (natToDigits b (b ^ g + x)).drop 1 = padDig b g x := by
  have h := natToDigits_split b hb g 1 x one_pos hx
  rw [one_mul] at h
  rw [h, natToDigits_one b hb]
  rfl

theorem natToDigits_chars (b : Nat) :
    ∀ (n : Nat), ∀ ch ∈ natToDigits b n, ∃ d, d < b ∧ ch = digitChar d := by
  intro n
  induction n using Nat.strong_induction_on with
  | _ n ih =>
    intro ch hch
    rw [natToDigits] at hch
    split at hch
    · simp at hch
    · split at hch
      · rename_i hb2 hnb
        simp only [List.mem_singleton] at hch
        exact ⟨n, hnb, hch⟩
      · rename_i hb2 hnb
        rw [List.mem_append] at hch
        rcases hch with hch | hch
        · exact ih (n / b) (Nat.div_lt_self (by omega) (by omega)) ch hch
        · simp only [List.mem_singleton] at hch
          exact ⟨n % b, Nat.mod_lt _ (by omega), hch⟩

theorem padDig_chars (b : Nat) (hb : 2 ≤ b) :
    ∀ (g x : Nat), ∀ ch ∈ padDig b g x, ∃ d, d < b ∧ ch = digitChar d := by
  intro g
  induction g with
  | zero => intro x ch hch; simp [padDig] at hch
  | succ g ih =>
      intro x ch hch
      rw [padDig, List.mem_append] at hch
      rcases hch with hch | hch
      · exact ih (x / b) ch hch
      · simp only [List.mem_singleton] at hch
        exact ⟨x % b, Nat.mod_lt _ (by omega), hch⟩

theorem commafyGo_roundtrip (b g : Nat) (c : Char) (hb : 2 ≤ b) (hg : 1 ≤ g)
    (hc : ∀ d, d < b → digitChar d ≠ c) :
    ∀ m, (commafyGo b (b ^ g) c m).filter (fun ch => ch != c) = natToDigits b m := by
  have h2e : 2 ≤ b ^ g := by
    calc 2 ≤ b := hb
    _ = b ^ 1 := (pow_one b).symm
    _ ≤ b ^ g := Nat.pow_le_pow_right (by omega) hg
  intro m
  induction m using Nat.strong_induction_on with
  | _ m ih =>
    rw [commafyGo, dif_neg (by omega : ¬ b ^ g ≤ 1)]
    split
    · rename_i hlt
      apply List.filter_eq_self.mpr
      intro ch hch
      obtain ⟨d, hd, rfl⟩ := natToDigits_chars b m ch hch
      simpa using hc d hd
    · rename_i hge
      rw [List.filter_append,
          ih (m / (b ^ g)) (Nat.div_lt_self (by omega) (by omega))]
      rw [natToDigits_dropPadded b hb g (m % (b ^ g)) (Nat.mod_lt _ (by omega))]
      rw [List.filter_cons_of_neg (by simp)]
      rw [List.filter_eq_self.mpr (fun ch hch => by
        obtain ⟨d, hd, rfl⟩ := padDig_chars b hb g (m % (b ^ g)) ch hch
        simpa using hc d hd)]
      rw [← natToDigits_split b hb g (m / (b ^ g)) (m % (b ^ g))
            (Nat.div_pos (by omega) (by omega)) (Nat.mod_lt _ (by omega))]
      congr 1
      rw [Nat.mul_comm]
      exact Nat.div_add_mod m (b ^ g)

/-- C6: grouping a positive integer in base 10 with any group size ≥ 1 and a
non-digit separator character, then deleting every occurrence of the
separator, reconstructs the plain ungrouped decimal rendering — in
particular the leading group never carries pad digits. -/
theorem decimal_grouping_roundtrip (n g : Nat) (c : Char)
    (hn : 0 < n) (hg : 1 ≤ g) (hc : c.isDigit = false) :
    (commafy 10 g c (n : Int)).filter (fun ch => ch != c) = natToDigits 10 n := by
  have hd : ∀ d, d < 10 → digitChar d ≠ c := by
    intro d hdlt heq
    have hdig : c.isDigit = true := by
      subst heq
      interval_cases d <;> decide
    rw [hdig] at hc
    exact Bool.noConfusion hc
  unfold commafy
  rw [Int.natAbs_ofNat]
  exact commafyGo_roundtrip 10 g c (by omega) hg hd n

/-- C6 witness: 1,234,567 regroups to 1234567. -/
theorem decimal_grouping_roundtrip_witness :
    0 < 1234567 ∧ 1 ≤ 3 ∧ (','.isDigit = false) ∧
    (commafy 10 3 ',' (1234567 : Int)).filter (fun ch => ch != ',') =
      natToDigits 10 1234567 :=
  ⟨by decide, by decide, by decide,
   decimal_grouping_roundtrip 1234567 3 ',' (by decide) (by decide) (by decide)⟩

/-- The newline flag the spec prescribes after emitting `out` on top of a
pass whose flag was `nl`: true exactly when the most recently emitted
character is a newline, unchanged when nothing was emitted. -/
def flagAfter (nl : Bool) (out : List Char) : Bool :=
  match out.getLast? with
  | some c => c == '\n'
  | Option.none => nl

theorem flagAfter_append (nl : Bool) (o1 o2 : List Char) :
    flagAfter nl (o1 ++ o2) = flagAfter (flagAfter nl o1) o2 := by
  unfold flagAfter
  rcases h2 : o2.getLast? with _ | c
  · rw [List.getLast?_eq_none_iff.mp h2, List.append_nil]
  · rw [List.getLast?_append_of_ne_nil o1 (by
      intro hnil
      rw [hnil] at h2
      exact Option.noConfusion h2), h2]

/-- A character map that neither creates nor destroys newlines. -/
def nlEquiv (f : Char → Char) : Prop := ∀ ch, (f ch == '\n') = (ch == '\n')

theorem pyLowerChar_nlEquiv : nlEquiv pyLowerChar := by
  intro ch
  unfold pyLowerChar
  split <;> first
    | rfl
    | (rename_i h; subst h; rfl)

theorem pyUpperChar_nlEquiv : nlEquiv pyUpperChar := by
  intro ch
  unfold pyUpperChar
  split <;> first
    | rfl
    | (rename_i h; subst h; rfl)

theorem flagAfter_map (f : Char → Char) (hf : nlEquiv f) (nl : Bool)
    (s : List Char) : flagAfter nl (s.map f) = flagAfter nl s := by
  unfold flagAfter
  rw [List.getLast?_map f s]
  rcases h : s.getLast? with _ | c
  · rfl
  · exact hf c

theorem flagAfter_pyCapitalize (nl : Bool) (s : List Char) :
    flagAfter nl (pyCapitalize s) = flagAfter nl s := by
  rcases s with _ | ⟨c, rest⟩
  · rfl
  · rcases hrest : rest with _ | ⟨r, rs⟩
    · unfold flagAfter
      rw [show pyCapitalize [c] = [pyUpperChar c] from rfl]
      simp only [List.getLast?]
      exact pyUpperChar_nlEquiv c
    · unfold flagAfter
      have hne : (r :: rs).map pyLowerChar ≠ [] := by simp
      rw [show pyCapitalize (c :: r :: rs) =
            [pyUpperChar c] ++ (r :: rs).map pyLowerChar from rfl,
          List.getLast?_append_of_ne_nil _ hne,
          show (c :: r :: rs) = [c] ++ (r :: rs) from rfl,
          List.getLast?_append_of_ne_nil _ (by simp),
          List.getLast?_map]
      rcases h : (r :: rs).getLast? with _ | d
      · exact absurd (List.getLast?_eq_none_iff.mp h) (by simp)
      · exact pyLowerChar_nlEquiv d

/-- Appending one character to the input of the capitalization state machine
appends one newline-equivalent character to its output. -/
theorem stringCapGo_snoc (xs : List Char) (c : Char) :
    ∀ prev, ∃ d, stringCapGo prev (xs ++ [c]) = stringCapGo prev xs ++ [d] ∧
      (d == '\n') = (c == '\n') := by
  induction xs with
  | nil =>
      intro prev
      refine ⟨if isWordChar c then (if prev then pyLowerChar c else pyUpperChar c) else c,
        rfl, ?_⟩
      by_cases hw : isWordChar c <;> by_cases hp : prev <;>
        simp [hw, hp, pyLowerChar_nlEquiv c, pyUpperChar_nlEquiv c]
  | cons x xs2 ih =>
      intro prev
      obtain ⟨d, hd, hdn⟩ := ih (isWordChar x)
      exact ⟨d, by simp [stringCapGo, hd], hdn⟩

theorem flagAfter_stringCapGo (nl : Bool) (s : List Char) :
    ∀ prev, flagAfter nl (stringCapGo prev s) = flagAfter nl s := by
  induction s using List.reverseRecOn with
  | nil => intro prev; rfl
  | append_singleton xs c _ =>
      intro prev
      obtain ⟨d, hd, hdn⟩ := stringCapGo_snoc xs c prev
      unfold flagAfter
      rw [hd, List.getLast?_concat, List.getLast?_concat]
      exact hdn

theorem digitChar_ne_nl : ∀ d, d < 16 → digitChar d ≠ '\n' := by decide

theorem natToDigits_ne_nil (b n : Nat) (hb : 2 ≤ b) : natToDigits b n ≠ [] := by
  rw [natToDigits, dif_neg (by omega : ¬ b < 2)]
  split <;> simp

theorem natToDigits_last (b n : Nat) (hb : 2 ≤ b) :
    ∃ d, d < b ∧ (natToDigits b n).getLast? = some (digitChar d) := by
  rw [natToDigits, dif_neg (by omega : ¬ b < 2)]
  split
  · rename_i h
    exact ⟨n, h, rfl⟩
  · rename_i h
    exact ⟨n % b, Nat.mod_lt _ (by omega), List.getLast?_concat _⟩

theorem intStrB_last (b : Nat) (n : Int) (hb : 2 ≤ b) :
    ∃ d, d < b ∧ (intStrB b n).getLast? = some (digitChar d) := by
  obtain ⟨d, hd, hlast⟩ := natToDigits_last b n.natAbs hb
  unfold intStrB
  split
  · refine ⟨d, hd, ?_⟩
    rw [show '-' :: natToDigits b n.natAbs = ['-'] ++ natToDigits b n.natAbs from rfl,
        List.getLast?_append_of_ne_nil _ (natToDigits_ne_nil b n.natAbs hb)]
    exact hlast
  · exact ⟨d, hd, hlast⟩

theorem commafyGo_last (b e : Nat) (c : Char) (hb : 2 ≤ b) (hbe : b ≤ e) :
    ∀ m, ∃ d, d < b ∧ (commafyGo b e c m).getLast? = some (digitChar d) := by
  intro m
  rw [commafyGo, dif_neg (by omega : ¬ e ≤ 1)]
  split
  · exact natToDigits_last b m hb
  · -- the final (least-significant) group is the zero-padded
    -- `to_string(m % e, True, e)`, whose last character is a digit
    have hlen2 : ¬ (e + m % e < b) := by omega
    rw [natToDigits, dif_neg (by omega : ¬ b < 2), dif_neg hlen2]
    rw [List.drop_append_of_le_length (by
      have := natToDigits_ne_nil b ((e + m % e) / b) hb
      rcases h : natToDigits b ((e + m % e) / b) with _ | ⟨x, xs⟩
      · exact absurd h this
      · simp)]
    refine ⟨(e + m % e) % b, Nat.mod_lt _ (by omega), ?_⟩
    rw [List.getLast?_append_of_ne_nil _ (by
      intro hnil
      have := congrArg List.length hnil
      simp at this)]
    rw [show (c :: (List.drop 1 (natToDigits b ((e + m % e) / b)) ++ [digitChar ((e + m % e) % b)])) =
          (c :: List.drop 1 (natToDigits b ((e + m % e) / b))) ++ [digitChar ((e + m % e) % b)] from rfl] at *
    exact List.getLast?_concat _

/-- The condition on one argument value under which the amended newline-flag
invariant holds: its `str()` rendering is nonempty and does not end in a
newline (every non-string value used by the test suite satisfies this; a
string value violates it exactly when it is empty or newline-terminated). -/
def valNlOk (v : Val) : Prop :=
  pyStr v ≠ [] ∧ (pyStr v).getLast? ≠ some '\n'

/-- The condition on a newline directive's count parameter: not an explicit
negative integer (an explicit negative count emits nothing yet still forces
the flag to true). -/
def newlineCountOk (ps : List (Option PParam)) : Bool :=
  match ps.headD Option.none with
  | some (.int n) => decide (0 ≤ n)
  | _ => true

mutual

/-- Node-tree condition for the amended invariant: no newline directive with
a negative count anywhere in the tree. -/
def nodeNlOk : Node → Bool
  | .newline ps _ _ => newlineCountOk ps
  | .conditional _ _ _ inner => nodesNlOk inner
  | .caseConv _ _ _ inner => nodesNlOk inner
  | .iteration _ _ _ inner => nodesNlOk inner
  | _ => true

def nodesNlOk : List Node → Bool
  | [] => true
  | n :: ns => nodeNlOk n && nodesNlOk ns

end

theorem nodesNlOk_mem {ns : List Node} (h : nodesNlOk ns = true) :
    ∀ n ∈ ns, nodeNlOk n = true := by
  induction ns with
  | nil => intro n hn; exact absurd hn (List.not_mem_nil n)
  | cons x xs ih =>
      rw [nodesNlOk, Bool.and_eq_true] at h
      intro n hn
      rcases List.mem_cons.mp hn with rfl | hn
      · exact h.1
      · exact ih h.2 n hn

theorem splitAux_ne_nil (fs : List Node) (delim : Option (Bool × Bool)) :
    (splitAux delim fs).2 ≠ [] := by
  rcases fs with _ | ⟨x, xs⟩
  · simp [splitAux]
  · rcases x with _ | _ | _ | _ | _ | _ | _ | _ | _ | ⟨ps, sa, sc⟩ | _ | _ | _ | _ | _ <;>
      simp only [splitAux] <;>
      (rcases h : (splitAux delim xs).2 with _ | ⟨c0, cs0⟩ <;> simp [h])

theorem splitAux_sub (fs : List Node) :
    ∀ (delim : Option (Bool × Bool)) (cl : List Node),
      cl ∈ (splitAux delim fs).2 → ∀ n ∈ cl, n ∈ fs := by
  induction fs with
  | nil =>
      intro delim cl hcl n hn
      simp [splitAux] at hcl
      subst hcl
      exact absurd hn (List.not_mem_nil n)
  | cons x xs ih =>
      intro delim cl hcl n hn
      rcases x with _ | _ | _ | _ | _ | _ | _ | _ | _ | ⟨ps, sa, sc⟩ | _ | _ | _ | _ | _ <;>
        simp only [splitAux] at hcl
      case semicolon =>
        rcases List.mem_cons.mp hcl with rfl | hcl
        · exact absurd hn (List.not_mem_nil n)
        · exact List.mem_cons_of_mem _ (ih (some (sa, sc)) cl hcl n hn)
      all_goals {
        rcases h : (splitAux delim xs).2 with _ | ⟨c0, cs0⟩
        · exact absurd h (splitAux_ne_nil xs delim)
        · rw [h] at hcl
          simp only [] at hcl
          rcases List.mem_cons.mp hcl with rfl | hcl2
          · rcases List.mem_cons.mp hn with rfl | hn2
            · exact List.mem_cons_self _ _
            · exact List.mem_cons_of_mem _ (ih delim c0 (by rw [h]; exact List.mem_cons_self _ _) n hn2)
          · exact List.mem_cons_of_mem _ (ih delim cl (by rw [h]; exact List.mem_cons_of_mem _ hcl2) n hn)
      }

theorem valNlOk_flagAfter {v : Val} (hv : valNlOk v) (nl : Bool) :
    flagAfter nl (pyStr v) = false := by
  unfold flagAfter
  rcases h : (pyStr v).getLast? with _ | c
  · exact absurd (List.getLast?_eq_none_iff.mp h) hv.1
  · have : c ≠ '\n' := by
      intro hc
      subst hc
      exact hv.2 h
    simpa using this

theorem textEmit_inv {s : List Char} {pos : Int} {nl : Bool} {out : List Char}
    {p : Int} {q : Bool} (h : textEmit s pos nl = .ok (out, p, q)) :
    q = flagAfter nl out := by
  unfold textEmit at h
  split at h
  · rename_i c hc
    rw [Except.ok.injEq, Prod.mk.injEq, Prod.mk.injEq] at h
    obtain ⟨h1, -, h3⟩ := h
    subst h1
    rw [← h3]
    unfold flagAfter
    rw [hc]
  · exact Except.noConfusion h

theorem characterEmit_inv {args : List Val} {pos : Int} {nl : Bool}
    {out : List Char} {p : Int} {q : Bool}
    (hargs : ∀ v ∈ args, valNlOk v)
    (h : characterEmit args pos nl = .ok (out, p, q)) :
    q = flagAfter nl out := by
  unfold characterEmit at h
  split at h
  · rename_i v hv
    rw [Except.ok.injEq, Prod.mk.injEq, Prod.mk.injEq] at h
    obtain ⟨h1, -, h3⟩ := h
    subst h1
    have hok := hargs v (pyGet_mem hv)
    rw [valNlOk_flagAfter hok nl, ← h3]
    rcases v with n | s | b | qv | _ <;> simp only [pyIsNlStr]
    rcases hs : (s == ['\n']) with _ | _
    · rfl
    · have : s = ['\n'] := by simpa using hs
      subst this
      exact absurd rfl hok.2
  · exact Except.noConfusion h

theorem numberEmit_inv {args : List Val} {pos : Int} {nl : Bool}
    {out : List Char} {p : Int} {q : Bool}
    (hargs : ∀ v ∈ args, valNlOk v)
    (h : numberEmit args pos nl = .ok (out, p, q)) :
    q = flagAfter nl out := by
  unfold numberEmit at h
  split at h
  · rename_i v hv
    rw [Except.ok.injEq, Prod.mk.injEq, Prod.mk.injEq] at h
    obtain ⟨h1, -, h3⟩ := h
    subst h1
    rw [valNlOk_flagAfter (hargs v (pyGet_mem hv)) nl, ← h3]
  · exact Except.noConfusion h

theorem flagAfter_replicate_nl (nl : Bool) (k : Nat) (hk : 1 ≤ k) :
    flagAfter nl (List.replicate k '\n') = true := by
  rcases k with _ | k2
  · omega
  · unfold flagAfter
    rw [List.replicate_succ', List.getLast?_concat]
    rfl

theorem newline_count_pos (ps : List (Option PParam))
    (hok : newlineCountOk ps = true) (t : Int)
    (ht : asInt (param0 ps (.int 1)) = .ok t) : 1 ≤ t := by
  unfold newlineCountOk at hok
  rcases ps with _ | ⟨p0, rest⟩
  · simp [param0, getParams, pyOr, pFalsy, asInt] at ht
    omega
  · rcases p0 with _ | ⟨pn | pc⟩
    · simp [param0, getParams, pyOr, pFalsy, asInt] at ht
      omega
    · by_cases hz : pn = 0
      · subst hz
        simp [param0, getParams, pyOr, pFalsy, asInt] at ht
        omega
      · simp [param0, getParams, pyOr, pFalsy, asInt, hz] at ht
        simp only [List.headD] at hok
        simp at hok
        omega
    · simp [param0, getParams, pyOr, pFalsy, asInt] at ht

theorem newlineEmit_inv {ps : List (Option PParam)} {pos : Int} {nl : Bool}
    {out : List Char} {p : Int} {q : Bool}
    (hok : newlineCountOk ps = true)
    (h : newlineEmit ps pos nl = .ok (out, p, q)) :
    q = flagAfter nl out := by
  unfold newlineEmit at h
  simp only [bind, Except.bind] at h
  split at h
  · exact Except.noConfusion h
  · rename_i t ht
    rw [Except.ok.injEq, Prod.mk.injEq, Prod.mk.injEq] at h
    obtain ⟨h1, -, h3⟩ := h
    subst h1
    subst h3
    have ht1 := newline_count_pos ps hok t ht
    exact (flagAfter_replicate_nl nl t.toNat (by omega)).symm

theorem freshlineEmit_inv {ps : List (Option PParam)} {pos : Int} {nl : Bool}
    {out : List Char} {p : Int} {q : Bool}
    (h : freshlineEmit ps pos nl = .ok (out, p, q)) :
    q = flagAfter nl out := by
  unfold freshlineEmit at h
  simp only [bind, Except.bind] at h
  split at h
  · exact Except.noConfusion h
  · rename_i t ht
    rw [Except.ok.injEq, Prod.mk.injEq, Prod.mk.injEq] at h
    obtain ⟨h1, -, h3⟩ := h
    subst h1
    subst h3
    rcases nl with _ | _
    · rw [show (if (false : Bool) then ([] : List Char) else ['\n']) = ['\n'] from rfl,
          List.singleton_append,
          show ('\n' :: List.replicate (t - 1).toNat '\n') =
            List.replicate ((t - 1).toNat + 1) '\n' from (List.replicate_succ _ _).symm]
      exact (flagAfter_replicate_nl false _ (by omega)).symm
    · rw [show (if (true : Bool) then ([] : List Char) else ['\n']) = [] from rfl,
          List.nil_append]
      rcases hk : (t - 1).toNat with _ | k2
      · rfl
      · rw [← hk]
        exact (flagAfter_replicate_nl true _ (by omega)).symm

theorem gotoEmit_inv {ps : List (Option PParam)} {a co : Bool} {pos : Int}
    {nl : Bool} {out : List Char} {p : Int} {q : Bool}
    (h : gotoEmit ps a co pos nl = .ok (out, p, q)) :
    q = flagAfter nl out := by
  unfold gotoEmit at h
  simp only [bind, Except.bind] at h
  split at h
  · exact Except.noConfusion h
  · split at h <;>
      (rw [Except.ok.injEq, Prod.mk.injEq, Prod.mk.injEq] at h
       obtain ⟨h1, -, h3⟩ := h
       subst h1
       subst h3
       rfl)

theorem pluralEmit_inv {a co : Bool} {args : List Val} {pos : Int}
    {nl : Bool} {out : List Char} {p : Int} {q : Bool}
    (h : pluralEmit a co args pos nl = .ok (out, p, q)) :
    q = flagAfter nl out := by
  unfold pluralEmit pluralEmitAt at h
  split at h
  · exact Except.noConfusion h
  · rename_i v hv
    rw [Except.ok.injEq, Prod.mk.injEq, Prod.mk.injEq] at h
    obtain ⟨h1, -, h3⟩ := h
    subst h1
    subst h3
    by_cases hone : pyEqOne v <;> by_cases ha : a <;>
      simp [hone, ha, flagAfter]

theorem objectEmit_inv {ae : Bool} {ps : List (Option PParam)} {a : Bool}
    {args : List Val} {pos : Int} {nl : Bool} {out : List Char} {p : Int}
    {q : Bool} (h : objectEmit ae ps a args pos nl = .ok (out, p, q)) :
    q = flagAfter nl out := by
  unfold objectEmit at h
  simp only [bind, Except.bind] at h
  repeat' first
    | exact Except.noConfusion h
    | split at h
  all_goals (
    rw [Except.ok.injEq, Prod.mk.injEq, Prod.mk.injEq] at h
    obtain ⟨h1, -, h3⟩ := h
    subst h1
    subst h3
    unfold flagAfter
    simp_all)

theorem flagAfter_ends_digit {pre digits : List Char}
    (hd : ∃ d, d < 16 ∧ digits.getLast? = some (digitChar d)) (nl : Bool) :
    flagAfter nl (pre ++ digits) = false := by
  obtain ⟨d, hdb, hlast⟩ := hd
  unfold flagAfter
  rw [List.getLast?_append_of_ne_nil pre (by
        intro hnil
        rw [hnil] at hlast
        exact Option.noConfusion hlast),
      hlast]
  simpa using digitChar_ne_nl d hdb

theorem IntKind.base_range (k : IntKind) : 2 ≤ k.base ∧ k.base ≤ 16 := by
  rcases k with _ | _ | _ | _ <;> exact ⟨by decide, by decide⟩

theorem commafy_last (b g : Nat) (cc : Char) (n : Int) (hb : 2 ≤ b)
    (hg : 1 ≤ g ∨ (g = 0 ∧ n.natAbs = 0)) :
    ∃ d, d < b ∧ (commafy b g cc n).getLast? = some (digitChar d) := by
  unfold commafy
  rcases hg with hg | ⟨hg, hm⟩
  · refine commafyGo_last b (b ^ g) cc hb ?_ n.natAbs
    calc b = b ^ 1 := (pow_one b).symm
    _ ≤ b ^ g := Nat.pow_le_pow_right (by omega) hg
  · subst hg
    rw [hm, commafyGo, dif_pos (by rw [pow_zero]), if_pos rfl]
    exact ⟨0, by omega, rfl⟩

theorem intDigits_last {k : IntKind} {co : Bool} {prm : List (Option PParam)}
    {n : Int} {digits : List Char} (h : intDigits k co prm n = .ok digits) :
    ∃ d, d < k.base ∧ digits.getLast? = some (digitChar d) := by
  have hb := k.base_range
  unfold intDigits at h
  split at h
  · split at h
    · exact Except.noConfusion h
    · rename_i commaInt hci
      split at h
      · exact Except.noConfusion h
      · split at h
        · exact Except.noConfusion h
        · rename_i hnz
          have hg : 1 ≤ commaInt.toNat ∨ (commaInt.toNat = 0 ∧ n.natAbs = 0) := by
            rename_i hneg _
            by_cases hz : commaInt = 0
            · subst hz
              right
              constructor
              · rfl
              · by_contra habs
                exact hnz ⟨rfl, habs⟩
            · left
              omega
          split at h
          · rw [Except.ok.injEq] at h
            subst h
            exact commafy_last k.base commaInt.toNat _ n hb.1 hg
          · split at h
            · rw [Except.ok.injEq] at h
              subst h
              exact commafy_last k.base commaInt.toNat _ n hb.1 hg
            · exact Except.noConfusion h
  · rw [Except.ok.injEq] at h
    subst h
    exact intStrB_last k.base n hb.1

set_option maxHeartbeats 2000000 in
theorem intfEmit_inv {k : IntKind} {ps : List (Option PParam)} {a co : Bool}
    {args : List Val} {pos : Int} {nl : Bool} {out : List Char} {p : Int}
    {q : Bool} (h : intfEmit k ps a co args pos nl = .ok (out, p, q)) :
    q = flagAfter nl out := by
  unfold intfEmit at h
  simp only [bind, Except.bind] at h
  repeat' first
    | exact Except.noConfusion h
    | split at h
  all_goals (
    rw [Except.ok.injEq, Prod.mk.injEq, Prod.mk.injEq] at h
    obtain ⟨h1, -, h3⟩ := h
    subst h1
    subst h3
    rw [← List.append_assoc]
    refine (flagAfter_ends_digit ?_ nl).symm
    obtain ⟨d, hd, hl⟩ := intDigits_last (k := k) (by assumption)
    have hb := k.base_range
    exact ⟨d, by omega, hl⟩)

theorem nodesNlOk_of_mem {ns : List Node} (h : ∀ n ∈ ns, nodeNlOk n = true) :
    nodesNlOk ns = true := by
  induction ns with
  | nil => rfl
  | cons x xs ih =>
      rw [nodesNlOk, Bool.and_eq_true]
      exact ⟨h x (List.mem_cons_self x xs),
             ih (fun n hn => h n (List.mem_cons_of_mem x hn))⟩

theorem getLastD_nil_cases (cs : List (List Node)) :
    cs.getLastD [] ∈ cs ∨ cs.getLastD [] = [] := by
  rcases cs with _ | ⟨c0, cs0⟩
  · exact Or.inr rfl
  · left
    rw [List.getLastD_eq_getLast?]
    rcases h : (c0 :: cs0).getLast? with _ | x
    · exact absurd (List.getLast?_eq_none_iff.mp h) (by simp)
    · exact List.mem_of_mem_getLast? (by rw [h]; rfl)

theorem headD_nil_cases (cs : List (List Node)) :
    cs.headD [] ∈ cs ∨ cs.headD [] = [] := by
  rcases cs with _ | ⟨c0, cs0⟩
  · exact Or.inr rfl
  · exact Or.inl (List.mem_cons_self _ _)

/-- The clause chosen by a conditional emission satisfies the node-tree
condition whenever the whole nested list does. -/
theorem clause_nodesNlOk {inner : List Node} (hinner : nodesNlOk inner = true)
    {cl : List Node}
    (hcl : cl ∈ (splitClauses inner).2 ∨ cl = []) : nodesNlOk cl = true := by
  rcases hcl with hcl | rfl
  · exact nodesNlOk_of_mem (fun n hn =>
      nodesNlOk_mem hinner n (splitAux_sub inner Option.none cl hcl n hn))
  · rfl

set_option maxHeartbeats 4000000 in
theorem emitInvAux : ∀ fuel : Nat,
    (∀ (n : Node) (args : List Val) (pos : Int) (nl : Bool) (out : List Char)
       (p : Int) (q : Bool), nodeNlOk n = true → (∀ v ∈ args, valNlOk v) →
       emitNodeF fuel n args pos nl = .ok (out, p, q) → q = flagAfter nl out) ∧
    (∀ (ns : List Node) (args : List Val) (pos : Int) (nl : Bool)
       (out : List Char) (p : Int) (q : Bool), nodesNlOk ns = true →
       (∀ v ∈ args, valNlOk v) →
       emitListF fuel ns args pos nl = .ok (out, p, q) → q = flagAfter nl out) := by
  intro fuel
  induction fuel with
  | zero =>
      exact ⟨fun _ _ _ _ _ _ _ _ _ h => Except.noConfusion h,
             fun _ _ _ _ _ _ _ _ _ h => Except.noConfusion h⟩
  | succ fuel ih =>
    obtain ⟨ihN, ihL⟩ := ih
    constructor
    · intro n args pos nl out p q hnok hargs h
      match n with
      | .text s => exact textEmit_inv h
      | .character ps a co => exact characterEmit_inv hargs h
      | .newline ps a co =>
          exact newlineEmit_inv (by simpa [nodeNlOk] using hnok) h
      | .freshline ps a co => exact freshlineEmit_inv h
      | .number ps a co => exact numberEmit_inv hargs h
      | .intf k ps a co => exact intfEmit_inv h
      | .objf ae ps a co => exact objectEmit_inv h
      | .goto ps a co => exact gotoEmit_inv h
      | .plural ps a co => exact pluralEmit_inv h
      | .semicolon ps a co => exact Except.noConfusion h
      | .endCond ps a co => exact Except.noConfusion h
      | .endCase ps a co => exact Except.noConfusion h
      | .iteration ps a co inner => exact Except.noConfusion h
      | .caseConv ps a co inner =>
          have hinner : nodesNlOk inner = true := by simpa [nodeNlOk] using hnok
          simp only [emitNodeF] at h
          split at h
          · exact Except.noConfusion h
          · rename_i s p2 nl2 hres
            rw [Except.ok.injEq, Prod.mk.injEq, Prod.mk.injEq] at h
            obtain ⟨h1, -, h3⟩ := h
            subst h1
            subst h3
            rw [ihL inner args pos nl s p2 nl2 hinner hargs hres]
            split
            · exact (flagAfter_map pyLowerChar pyLowerChar_nlEquiv nl s).symm
            · split
              · exact (flagAfter_stringCapGo nl s false).symm
              · split
                · exact (flagAfter_pyCapitalize nl s).symm
                · exact (flagAfter_map pyUpperChar pyUpperChar_nlEquiv nl s).symm
      | .conditional ps a co inner =>
          have hinner : nodesNlOk inner = true := by simpa [nodeNlOk] using hnok
          simp only [emitNodeF] at h
          split at h
          · -- neither flag: index mode
            split at h
            · exact Except.noConfusion h
            · rename_i v hv
              simp only [bind, Except.bind] at h
              split at h
              · exact Except.noConfusion h
              · rename_i inR hcmp
                split at h
                · -- in range
                  split at h
                  · exact Except.noConfusion h
                  · rename_i idx hidx
                    split at h
                    · rename_i clause hcl
                      exact ihL clause args (pos + 1) nl out p q
                        (clause_nodesNlOk hinner (Or.inl (pyGet_mem hcl)))
                        hargs h
                    · exact Except.noConfusion h
                · -- out of range: default clause or nothing
                  split at h
                  · rename_i da dcolon hlast
                    refine ihL _ args (pos + 1) nl out p q ?_ hargs h
                    split
                    · exact clause_nodesNlOk hinner (getLastD_nil_cases _)
                    · rfl
                  · exact Except.noConfusion h
                  · exact Except.noConfusion h
          · split at h
            · -- colon only: truthy selection
              split at h
              · exact Except.noConfusion h
              · rename_i v hv
                split at h
                · split at h
                  · rename_i clause hcl
                    exact ihL clause args (pos + 1) nl out p q
                      (clause_nodesNlOk hinner (Or.inl (List.get?_mem hcl)))
                      hargs h
                  · exact Except.noConfusion h
                · exact ihL _ args (pos + 1) nl out p q
                    (clause_nodesNlOk hinner (headD_nil_cases _)) hargs h
            · split at h
              · -- at only
                split at h
                · exact Except.noConfusion h
                · rename_i v hv
                  split at h
                  · exact ihL _ args pos nl out p q
                      (clause_nodesNlOk hinner (headD_nil_cases _)) hargs h
                  · rw [Except.ok.injEq, Prod.mk.injEq, Prod.mk.injEq] at h
                    obtain ⟨h1, -, h3⟩ := h
                    subst h1
                    subst h3
                    rfl
              · exact Except.noConfusion h
    · intro ns args pos nl out p q hnok hargs h
      match ns with
      | [] =>
          simp only [emitListF] at h
          rw [Except.ok.injEq, Prod.mk.injEq, Prod.mk.injEq] at h
          obtain ⟨h1, -, h3⟩ := h
          subst h1
          subst h3
          rfl
      | n1 :: rest =>
          rw [nodesNlOk, Bool.and_eq_true] at hnok
          simp only [emitListF] at h
          split at h
          · exact Except.noConfusion h
          · rename_i o1 p1 nl1 hr1
            split at h
            · exact Except.noConfusion h
            · rename_i o2 p2 nl2 hr2
              rw [Except.ok.injEq, Prod.mk.injEq, Prod.mk.injEq] at h
              obtain ⟨h1, -, h3⟩ := h
              subst h1
              subst h3
              rw [flagAfter_append,
                  ← ihN n1 args pos nl o1 p1 nl1 hnok.1 hargs hr1]
              exact ihL rest args p1 nl1 o2 p2 nl2 hnok.2 hargs hr2

/-- C7 counterexample: the raw-number directive `~r` echoing the string
argument "\n" emits a newline as the most recent character yet returns the
newline flag false — refuting the invariant as stated for all argument
values. -/
theorem number_flag_counterexample :
    emitNodeF 9 (.number [Option.none] false false) [.str ['\n']] 0 false =
      .ok (['\n'], 1, false) ∧
    flagAfter false ['\n'] = true :=
  ⟨rfl, rfl⟩

/-- C7 (amended): the newline-flag invariant — the flag returned by an
emission is true exactly when the most recently emitted character is a
newline, and unchanged when nothing is emitted — holds for every node tree
that contains no newline directive with an explicitly negative count, run
against any argument list whose values all render as nonempty text not
ending in a newline.  (As stated the claim fails: the raw-number directive
always returns false and a negative-count newline directive emits nothing
yet returns true.) -/
theorem newline_flag_invariant :
    ∀ (fuel : Nat) (ns : List Node) (args : List Val) (pos : Int) (nl : Bool)
      (out : List Char) (p : Int) (q : Bool),
      nodesNlOk ns = true → (∀ v ∈ args, valNlOk v) →
      emitListF fuel ns args pos nl = .ok (out, p, q) →
      q = flagAfter nl out :=
  fun fuel => (emitInvAux fuel).2

/-- C7 witness: the invariant instantiated on a concrete pass. -/
theorem newline_flag_invariant_witness :
    false = flagAfter true "hi!".data :=
  newline_flag_invariant 9 [.text "hi!".data] [] 0 true "hi!".data 0 false
    rfl (fun v hv => absurd hv (List.not_mem_nil v)) rfl

def termChar : EndKind → Char
  | .condE => ']'
  | .caseE => ')'

theorem pyLowerChar_eq_rbrack (ch : Char) : pyLowerChar ch = ']' ↔ ch = ']' := by
  unfold pyLowerChar
  split <;> first
    | exact Iff.rfl
    | decide

theorem pyLowerChar_eq_rparen (ch : Char) : pyLowerChar ch = ')' ↔ ch = ')' := by
  unfold pyLowerChar
  split <;> first
    | exact Iff.rfl
    | decide

set_option maxHeartbeats 4000000 in
theorem parseDirectiveF_end_mem (kk : EndKind) :
    ∀ (fuel : Nat) (s : List Char) (pos : Nat) (ek : Option EndKind)
      (n : Node) (p2 : Nat),
      parseDirectiveF fuel s pos ek = .ok (n, p2) →
      isEndFor (some kk) n = true → termChar kk ∈ s := by
  intro fuel s pos ek n p2 h hend
  match fuel with
  | 0 => exact Except.noConfusion h
  | fuel + 1 =>
    simp only [parseDirectiveF, bind, Except.bind] at h
    repeat' first
      | exact Except.noConfusion h
      | split at h
    all_goals (
      rw [Except.ok.injEq, Prod.mk.injEq] at h
      obtain ⟨h1, -⟩ := h
      subst h1)
    all_goals (rcases kk <;> simp only [isEndFor] at hend <;>
      (try exact Bool.noConfusion hend))
    all_goals (
      rename_i hc
      simp only [termChar]
      first
        | rw [← (pyLowerChar_eq_rbrack _).mp hc]
        | rw [← (pyLowerChar_eq_rparen _).mp hc]
      apply List.get?_mem
      assumption)

/-- If the terminator character never occurs in the control string, the
recursive `parse_spec` scan can never return the `ended` triple. -/
theorem parseSpecGoF_no_ended (kk : EndKind) (s : List Char)
    (hterm : termChar kk ∉ s) :
    ∀ (fuel pStart pos : Nat) (acc : List Node) (ns : List Node) (p2 : Nat)
      (ec : Bool),
      parseSpecGoF fuel s pStart pos acc (some kk) ≠ .ok (.ended ns p2 ec) := by
  intro fuel
  induction fuel with
  | zero =>
      intro pStart pos acc ns p2 ec h
      exact Except.noConfusion h
  | succ fuel ih =>
      intro pStart pos acc ns p2 ec h
      simp only [parseSpecGoF] at h
      split at h
      · rw [Except.ok.injEq] at h
        exact ParseOut.noConfusion h
      · rename_i c hc
        split at h
        · simp only [bind, Except.bind] at h
          split at h
          · exact Except.noConfusion h
          · rename_i nd hnd
            split at h
            · rename_i hend
              exact hterm (parseDirectiveF_end_mem kk fuel s (pos + 1)
                (some kk) nd.1 nd.2 hnd hend)
            · exact ih nd.2 nd.2 _ ns p2 ec h
        · exact ih pStart (pos + 1) acc ns p2 ec h

/-- Scanning a literal prefix (no escape characters before position `d`,
which holds one) ends at the escape; if the directive parse at `d+1` always
fails, the whole scan fails. -/
theorem parseSpecGoF_scan_fails (s : List Char) (d : Nat)
    (hd : s.get? d = some '~')
    (hpre : ∀ i, i < d → ∀ c, s.get? i = some c → c ≠ '~')
    (hdir : ∀ (f2 : Nat) (r : Node × Nat),
        parseDirectiveF f2 s (d + 1) Option.none ≠ .ok r) :
    ∀ (fuel : Nat) (pStart pos : Nat) (acc : List Node), pos ≤ d →
      ∀ (r : ParseOut), parseSpecGoF fuel s pStart pos acc Option.none ≠ .ok r := by
  have hdlen : d < s.length := (List.get?_eq_some.mp hd).1
  intro fuel
  induction fuel with
  | zero =>
      intro pStart pos acc hpos r h
      exact Except.noConfusion h
  | succ fuel ih =>
      intro pStart pos acc hpos r h
      simp only [parseSpecGoF] at h
      rcases hcp : s.get? pos with _ | c
      · rw [List.get?_eq_none] at hcp
        omega
      · rw [hcp] at h
        simp only [] at h
        by_cases hpd : pos = d
        · subst hpd
          rw [hd] at hcp
          injection hcp with hcc
          subst hcc
          rw [if_pos rfl] at h
          simp only [bind, Except.bind] at h
          split at h
          · exact Except.noConfusion h
          · rename_i nd hnd
            exact hdir fuel nd hnd
        · have hne : c ≠ '~' := hpre pos (by omega) c hcp
          rw [if_neg hne] at h
          exact ih pStart (pos + 1) acc (by omega) r h

/-- `parse_args` at a position holding a character that starts no parameter
element and is not a comma: one `None` element, position unchanged. -/
theorem parseArgsGo_stuck (s : List Char) (p : Nat) (bc : Char) (f : Nat)
    (hbc : s.get? p = some bc) (h1 : bc ≠ '-') (h2 : bc ≠ '\'')
    (h3 : bc.isDigit = false) (h4 : bc ≠ ',') :
    parseArgsGo (f + 1) s p [] = .ok ([Option.none], p) := by
  have hlt : p < s.length := (List.get?_eq_some.mp hbc).1
  have hma : matchArg s p = (Option.none, p) := by
    unfold matchArg
    rw [hbc]
    split
    · simp_all
    · simp_all
    · rename_i c0 hn1 hn2 heq
      injection heq with heq2
      subst heq2
      simp [h3]
    · simp_all
  simp only [parseArgsGo, if_pos hlt, hma, hbc]
  rw [if_neg h4]
  rfl

/-- `parse_at_colon` at a position holding a non-flag character: no flags,
position unchanged. -/
theorem parseAtColon_stuck (s : List Char) (p : Nat) (bc : Char)
    (hbc : s.get? p = some bc) (h1 : (bc == ':') = false)
    (h2 : (bc == '@') = false) :
    parseAtColon s p = (false, false, p) := by
  have hlt : p < s.length := (List.get?_eq_some.mp hbc).1
  have hget : s.get ⟨p, hlt⟩ = bc := by
    have := List.get?_eq_get hlt
    rw [this] at hbc
    injection hbc
  unfold parseAtColon
  rw [List.drop_eq_get_cons hlt, hget]
  rcases hdrop : s.drop (p + 1) with _ | ⟨c2, rest⟩
  · simp [List.takeWhile, h1, h2]
  · simp [List.takeWhile, h1, h2]

/-- `parse_directive` at a bracket character whose terminator never occurs
(or at the iteration bracket, which has no registered terminator at all)
always fails. -/
theorem parseDirectiveF_bracket_fails (s : List Char) (pos0 : Nat) (bc : Char)
    (hbc : s.get? pos0 = some bc)
    (hcase : (bc = '[' ∧ ']' ∉ s) ∨ (bc = '(' ∧ ')' ∉ s) ∨ bc = '{') :
    ∀ (f2 : Nat) (r : Node × Nat),
      parseDirectiveF f2 s pos0 Option.none ≠ .ok r := by
  intro f2 r h
  match f2 with
  | 0 => exact Except.noConfusion h
  | f + 1 =>
    rcases hcase with ⟨rfl, hterm⟩ | ⟨rfl, hterm⟩ | rfl
    · simp only [parseDirectiveF, bind, Except.bind, parseArgsF] at h
      rw [parseArgsGo_stuck s pos0 '[' f hbc (by decide) (by decide) (by decide)
            (by decide)] at h
      simp only [] at h
      rw [parseAtColon_stuck s pos0 '[' hbc (by decide) (by decide)] at h
      simp only [] at h
      split at h
      · exact Except.noConfusion h
      · rename_i ch2 hch2
        rw [hbc] at hch2
        injection hch2 with hch3
        subst hch3
        split at h <;>
          first
            | exact Except.noConfusion h
            | (rename_i heq2
               refine absurd heq2 ?_
               decide)
            | skip
        rcases hres : parseSpecGoF f s (pos0 + 1) (pos0 + 1) [] (some .condE) with e | pr
        · rw [hres] at h
          exact Except.noConfusion h
        · rcases pr with ns | ⟨ns, p3, ec⟩
          · rw [hres] at h
            exact Except.noConfusion h
          · exact parseSpecGoF_no_ended .condE s hterm f (pos0 + 1) (pos0 + 1)
              [] ns p3 ec hres
    · simp only [parseDirectiveF, bind, Except.bind, parseArgsF] at h
      rw [parseArgsGo_stuck s pos0 '(' f hbc (by decide) (by decide) (by decide)
            (by decide)] at h
      simp only [] at h
      rw [parseAtColon_stuck s pos0 '(' hbc (by decide) (by decide)] at h
      simp only [] at h
      split at h
      · exact Except.noConfusion h
      · rename_i ch2 hch2
        rw [hbc] at hch2
        injection hch2 with hch3
        subst hch3
        split at h <;>
          first
            | exact Except.noConfusion h
            | (rename_i heq2
               refine absurd heq2 ?_
               decide)
            | skip
        rcases hres : parseSpecGoF f s (pos0 + 1) (pos0 + 1) [] (some .caseE) with e | pr
        · rw [hres] at h
          exact Except.noConfusion h
        · rcases pr with ns | ⟨ns, p3, ec⟩
          · rw [hres] at h
            exact Except.noConfusion h
          · exact parseSpecGoF_no_ended .caseE s hterm f (pos0 + 1) (pos0 + 1)
              [] ns p3 ec hres
    · simp only [parseDirectiveF, bind, Except.bind, parseArgsF] at h
      rw [parseArgsGo_stuck s pos0 '{' f hbc (by decide) (by decide) (by decide)
            (by decide)] at h
      simp only [] at h
      rw [parseAtColon_stuck s pos0 '{' hbc (by decide) (by decide)] at h
      simp only [] at h
      split at h
      · exact Except.noConfusion h
      · rename_i ch2 hch2
        rw [hbc] at hch2
        injection hch2 with hch3
        subst hch3
        split at h <;>
          first
            | exact Except.noConfusion h
            | (rename_i heq2
               refine absurd heq2 ?_
               decide)

theorem parse_fails_of_scan (s : List Char)
    (hscan : ∀ (fuel : Nat) (r : ParseOut),
        parseSpecGoF fuel s 0 0 [] Option.none ≠ .ok r) :
    ∃ e, parseFmt (String.mk s) = .error e := by
  have hdata : (String.mk s).data = s := rfl
  unfold parseFmt
  simp only [hdata]
  rcases hres : parseSpecGoF (2 * s.length + 8) s 0 0 [] Option.none with e | pr
  · exact ⟨e, rfl⟩
  · exact absurd hres (hscan _ pr)

theorem bracket_scan_fails (pre body : List Char) (bc : Char)
    (hpre : '~' ∉ pre)
    (hcase : (bc = '[' ∧ ']' ∉ pre ++ '~' :: bc :: body) ∨
             (bc = '(' ∧ ')' ∉ pre ++ '~' :: bc :: body) ∨ bc = '{') :
    ∀ (fuel : Nat) (r : ParseOut),
      parseSpecGoF fuel (pre ++ '~' :: bc :: body) 0 0 [] Option.none ≠ .ok r := by
  have hd : (pre ++ '~' :: bc :: body).get? pre.length = some '~' := by
    rw [List.get?_append_right (le_refl _)]
    simp
  have hbr : (pre ++ '~' :: bc :: body).get? (pre.length + 1) = some bc := by
    rw [List.get?_append_right (by omega)]
    have h1 : pre.length + 1 - pre.length = 1 := by omega
    rw [h1]
    rfl
  have hpre2 : ∀ i, i < pre.length → ∀ c,
      (pre ++ '~' :: bc :: body).get? i = some c → c ≠ '~' := by
    intro i hi c hcg hc
    subst hc
    rw [List.get?_append hi] at hcg
    exact hpre (List.get?_mem hcg)
  intro fuel r
  exact parseSpecGoF_scan_fails (pre ++ '~' :: bc :: body) pre.length hd hpre2
    (fun f2 r2 => parseDirectiveF_bracket_fails (pre ++ '~' :: bc :: body)
      (pre.length + 1) bc hbr hcase f2 r2)
    fuel 0 0 [] (by omega) r

/-- C8: a bracket-style directive whose registered terminator never occurs
makes the whole parse fail, for each of the three bracket kinds: a
conditional `~[` with no `]` anywhere after it, a case conversion `~(` with
no `)`, and an iteration `~{` (whose terminator is not even registered, so
it fails regardless of the body).  In each case the scan phase never returns
successfully — at any fuel — and the top-level `parse` returns an error. -/
theorem missing_terminator_parse_fails :
    (∀ (pre body : List Char), '~' ∉ pre → ']' ∉ pre → ']' ∉ body →
       (∀ (fuel : Nat) (r : ParseOut),
          parseSpecGoF fuel (pre ++ '~' :: '[' :: body) 0 0 [] Option.none ≠ .ok r) ∧
       ∃ e, parseFmt (String.mk (pre ++ '~' :: '[' :: body)) = .error e) ∧
    (∀ (pre body : List Char), '~' ∉ pre → ')' ∉ pre → ')' ∉ body →
       (∀ (fuel : Nat) (r : ParseOut),
          parseSpecGoF fuel (pre ++ '~' :: '(' :: body) 0 0 [] Option.none ≠ .ok r) ∧
       ∃ e, parseFmt (String.mk (pre ++ '~' :: '(' :: body)) = .error e) ∧
    (∀ (pre body : List Char), '~' ∉ pre →
       (∀ (fuel : Nat) (r : ParseOut),
          parseSpecGoF fuel (pre ++ '~' :: '{' :: body) 0 0 [] Option.none ≠ .ok r) ∧
       ∃ e, parseFmt (String.mk (pre ++ '~' :: '{' :: body)) = .error e) := by
  refine ⟨fun pre body h1 h2 h3 => ?_, fun pre body h1 h2 h3 => ?_,
          fun pre body h1 => ?_⟩
  · have hterm : ']' ∉ pre ++ '~' :: '[' :: body := by
      simp only [List.mem_append, List.mem_cons]
      push_neg
      exact ⟨h2, by decide, by decide, h3⟩
    have hscan := bracket_scan_fails pre body '[' h1 (Or.inl ⟨rfl, hterm⟩)
    exact ⟨hscan, parse_fails_of_scan _ hscan⟩
  · have hterm : ')' ∉ pre ++ '~' :: '(' :: body := by
      simp only [List.mem_append, List.mem_cons]
      push_neg
      exact ⟨h2, by decide, by decide, h3⟩
    have hscan := bracket_scan_fails pre body '(' h1 (Or.inr (Or.inl ⟨rfl, hterm⟩))
    exact ⟨hscan, parse_fails_of_scan _ hscan⟩
  · have hscan := bracket_scan_fails pre body '{' h1 (Or.inr (Or.inr rfl))
    exact ⟨hscan, parse_fails_of_scan _ hscan⟩

/-- C8 witness: parsing `"ab~[cd"` fails. -/
theorem missing_terminator_parse_fails_witness :
    ('~' ∉ "ab".data ∧ ']' ∉ "ab".data ∧ ']' ∉ "cd".data) ∧
    ∃ e, parseFmt (String.mk ("ab".data ++ '~' :: '[' :: "cd".data)) = .error e :=
  ⟨⟨by decide, by decide, by decide⟩,
   (missing_terminator_parse_fails.1 "ab".data "cd".data (by decide) (by decide)
      (by decide)).2⟩
